import Mathlib

/-!
Verification of the pull-request collaboration core of the gitness repository:
the merge-verification rule engine (`DefPullReq.MergeVerify` and
`getCodeOwnerApprovalStatus` in `app/services/protection`), the post-receive
git-hook classifier and PR messaging (`app/api/controller/githook/post_receive.go`),
the head-ref synchronizer handlers (`app/services/pullreq/handlers_head_ref.go`),
and the pull-request update controller (`app/api/controller/pullreq/pr_update.go`).

Go slices are embedded as `List`, Go `int`/`int64` as `Int`, nil-able pointers as
`Option`, and a Go panic (nil-pointer dereference) as a `none` result.
-/

set_option autoImplicit false

namespace Gitness

/-! ## Enumerations (types/enum) -/

inductive PullReqReviewDecision where
  | pending
  | approved
  | changereq
  | reviewed
  deriving DecidableEq

inductive CheckStatus where
  | pending
  | running
  | success
  | failure
  | error
  deriving DecidableEq

inductive MergeMethod where
  | merge
  | squash
  | rebase
  deriving DecidableEq

/-- enum.MergeMethods: the list of all merge methods. -/
def MergeMethods : List MergeMethod := [.merge, .squash, .rebase]

/-! ## Data model (types) -/

structure PrincipalInfo where
  id : Int
  displayName : String
  deriving DecidableEq

structure PullReqReviewer where
  reviewer : PrincipalInfo
  reviewDecision : PullReqReviewDecision
  sha : String
  deriving DecidableEq

structure PullReq where
  title : String
  description : String
  sourceSHA : String
  unresolvedCount : Int
  activitySeq : Int
  edited : Int
  version : Int
  deriving DecidableEq

structure CheckResult where
  identifier : String
  status : CheckStatus
  deriving DecidableEq

structure OwnerEvaluation where
  owner : PrincipalInfo
  reviewDecision : PullReqReviewDecision
  reviewSHA : String
  deriving DecidableEq

structure UserGroupOwnerEvaluation where
  id : String
  evaluations : List OwnerEvaluation
  deriving DecidableEq

structure EvaluationEntry where
  pattern : String
  ownerEvaluations : List OwnerEvaluation
  userGroupOwnerEvaluations : List UserGroupOwnerEvaluation
  deriving DecidableEq

structure Evaluation where
  evaluationEntries : List EvaluationEntry
  deriving DecidableEq

structure Violation where
  code : String
  message : String
  deriving DecidableEq

structure RuleViolations where
  violations : List Violation
  deriving DecidableEq

/-! ## Rule model (app/services/protection, DefPullReq and its sub-policies) -/

structure DefApprovals where
  requireCodeOwners : Bool
  requireMinimumCount : Int
  requireLatestCommit : Bool
  requireNoChangeRequest : Bool
  deriving DecidableEq

structure DefComments where
  requireResolveAll : Bool
  deriving DecidableEq

structure DefStatusChecks where
  requireIdentifiers : List String
  deriving DecidableEq

structure DefMerge where
  strategiesAllowed : List MergeMethod
  deleteBranch : Bool
  deriving DecidableEq

structure DefPullReq where
  approvals : DefApprovals
  comments : DefComments
  statusChecks : DefStatusChecks
  merge : DefMerge
  deriving DecidableEq

/-- MergeVerifyInput; the fields the evaluation reads. `codeOwners` is a
nil-able pointer in the source, hence `Option`. A `none` method embeds the
empty merge-method string. -/
structure MergeVerifyInput where
  pullReq : PullReq
  reviewers : List PullReqReviewer
  method : Option MergeMethod
  checkResults : List CheckResult
  codeOwners : Option Evaluation
  deriving DecidableEq

structure MergeVerifyOutput where
  deleteSourceBranch : Bool
  allowedMethods : List MergeMethod
  deriving DecidableEq

/-! ## Violation codes (constants of the protection package) -/

def codePullReqApprovalReqMinCount : String :=
  "pullreq.approvals.require_minimum_count"

def codePullReqApprovalReqMinCountLatest : String :=
  "pullreq.approvals.require_minimum_count:latest_commit"

def codePullReqApprovalReqChangeRequested : String :=
  "pullreq.approvals.require_change_requested"

def codePullReqApprovalReqChangeRequestedOldSHA : String :=
  "pullreq.approvals.require_change_requested_old_SHA"

def codePullReqApprovalReqCodeOwnersNoApproval : String :=
  "pullreq.approvals.require_code_owners:no_approval"

def codePullReqApprovalReqCodeOwnersChangeRequested : String :=
  "pullreq.approvals.require_code_owners:change_requested"

def codePullReqApprovalReqCodeOwnersNoLatestApproval : String :=
  "pullreq.approvals.require_code_owners:no_latest_approval"

def codePullReqMergeStrategiesAllowed : String :=
  "pullreq.merge.strategies_allowed"

def codePullReqCommentsReqResolveAll : String :=
  "pullreq.comments.require_resolve_all"

def codePullReqStatusChecksReqIdentifiers : String :=
  "pullreq.status_checks.required_identifiers"

/-! ## getCodeOwnerApprovalStatus

The source iterates the per-user evaluations and then every group member
evaluation, returning change-requested immediately on the first dissent and
otherwise collecting the approving evaluations. The early return is embedded
as a `none` result of the scan. -/

/-- One pass of the loop body over a list of owner evaluations:
`none` embeds the early `return ChangeReq, nil`, otherwise the accumulated
approvers after this list. -/
def scanOwnerEvaluations :
    List OwnerEvaluation → List OwnerEvaluation → Option (List OwnerEvaluation)
  | [], approvers => some approvers
  | o :: rest, approvers =>
    if o.reviewDecision = .changereq then none
    else if o.reviewDecision = .approved then scanOwnerEvaluations rest (approvers ++ [o])
    else scanOwnerEvaluations rest approvers

/-- The nested loop over the user-group evaluations. -/
def scanUserGroupEvaluations :
    List UserGroupOwnerEvaluation → List OwnerEvaluation → Option (List OwnerEvaluation)
  | [], approvers => some approvers
  | g :: rest, approvers =>
    match scanOwnerEvaluations g.evaluations approvers with
    | none => none
    | some approvers2 => scanUserGroupEvaluations rest approvers2

def getCodeOwnerApprovalStatus (entry : EvaluationEntry) :
    PullReqReviewDecision × List OwnerEvaluation :=
  match scanOwnerEvaluations entry.ownerEvaluations [] with
  | none => (.changereq, [])
  | some approvers =>
    match scanUserGroupEvaluations entry.userGroupOwnerEvaluations approvers with
    | none => (.changereq, [])
    | some approvers2 =>
      if approvers2.length > 0 then (.approved, approvers2) else (.pending, [])

/-- All leaf evaluations under a pattern entry, users first, then the members
of each group in order; used to state properties of the aggregation. -/
def entryAllEvaluations (entry : EvaluationEntry) : List OwnerEvaluation :=
  entry.ownerEvaluations ++ entry.userGroupOwnerEvaluations.flatMap UserGroupOwnerEvaluation.evaluations

/-! ## MergeVerify (DefPullReq.MergeVerify)

The source appends violations into one accumulator in a fixed order:
change-request violations found while scanning the reviewers, the
minimum-approval-count violation, the code-owner violations, the
unresolved-comments violation, the status-check violation, and the
merge-strategy violation. Each section below is one of those stages. -/

/-- The reviewer loop: builds `approvedBy` and the change-request violations,
in reviewer order. -/
def reviewerScan (v : DefPullReq) (sourceSHA : String) :
    List PullReqReviewer → List PrincipalInfo × List Violation
  | [] => ([], [])
  | r :: rest =>
    let acc := reviewerScan v sourceSHA rest
    match r.reviewDecision with
    | .approved =>
      if v.approvals.requireLatestCommit && !(r.sha == sourceSHA) then acc
      else (r.reviewer :: acc.1, acc.2)
    | .changereq =>
      if v.approvals.requireNoChangeRequest then
        if r.sha = sourceSHA then
          (acc.1, ⟨codePullReqApprovalReqChangeRequested,
            "Reviewer " ++ r.reviewer.displayName ++ " requested changes"⟩ :: acc.2)
        else
          (acc.1, ⟨codePullReqApprovalReqChangeRequestedOldSHA,
            "Reviewer " ++ r.reviewer.displayName ++
              " requested changes for an older commit"⟩ :: acc.2)
      else acc
    | .pending => acc
    | .reviewed => acc

/-- The reviewer decisions that the loop counts into `approvedBy`:
approved, and at the current source SHA when require-latest-commit is set. -/
def qualifiesAsApproval (v : DefPullReq) (sourceSHA : String) (r : PullReqReviewer) : Bool :=
  r.reviewDecision == .approved &&
    (!v.approvals.requireLatestCommit || r.sha == sourceSHA)

def minCountViolations (v : DefPullReq) (approvedBy : List PrincipalInfo) : List Violation :=
  if (approvedBy.length : Int) < v.approvals.requireMinimumCount then
    if v.approvals.requireLatestCommit then
      [⟨codePullReqApprovalReqMinCountLatest,
        "Insufficient number of approvals of the latest commit. Have " ++
          toString approvedBy.length ++ " but need at least " ++
          toString v.approvals.requireMinimumCount ++ "."⟩]
    else
      [⟨codePullReqApprovalReqMinCount,
        "Insufficient number of approvals. Have " ++ toString approvedBy.length ++
          " but need at least " ++ toString v.approvals.requireMinimumCount ++ "."⟩]
  else []

def codeOwnerEntryViolations (v : DefPullReq) (sourceSHA : String)
    (entry : EvaluationEntry) : List Violation :=
  let st := getCodeOwnerApprovalStatus entry
  if st.1 = .pending then
    [⟨codePullReqApprovalReqCodeOwnersNoApproval,
      "Code owners approval pending for \"" ++ entry.pattern ++ "\""⟩]
  else if st.1 = .changereq then
    [⟨codePullReqApprovalReqCodeOwnersChangeRequested,
      "Code owners requested changes for \"" ++ entry.pattern ++ "\""⟩]
  else if !v.approvals.requireLatestCommit then []
  else if st.2.any (fun ev => ev.reviewSHA == sourceSHA) then []
  else
    [⟨codePullReqApprovalReqCodeOwnersNoLatestApproval,
      "Code owners approval pending on latest commit for \"" ++ entry.pattern ++ "\""⟩]

/-- The code-owner section. The source dereferences the `CodeOwners` pointer
only when the policy requires code owners; a nil pointer there is a panic,
embedded as `none`. -/
def codeOwnerStage (v : DefPullReq) (inp : MergeVerifyInput) : Option (List Violation) :=
  if v.approvals.requireCodeOwners then
    match inp.codeOwners with
    | none => none
    | some ev =>
      some (ev.evaluationEntries.flatMap (codeOwnerEntryViolations v inp.pullReq.sourceSHA))
  else some []

def commentViolations (v : DefPullReq) (pr : PullReq) : List Violation :=
  if v.comments.requireResolveAll ∧ pr.unresolvedCount > 0 then
    [⟨codePullReqCommentsReqResolveAll,
      "All comments must be resolved. There are " ++ toString pr.unresolvedCount ++
        " unresolved comments."⟩]
  else []

/-- The inner loop of the status-check section: it looks only at the first
check result whose identifier matches and takes its status, breaking there. -/
def checkSucceeded (checkResults : List CheckResult) (ident : String) : Bool :=
  match checkResults.find? (fun c => c.identifier == ident) with
  | some c => c.status == .success
  | none => false

def violatingStatusCheckIdentifiers (v : DefPullReq)
    (checkResults : List CheckResult) : List String :=
  v.statusChecks.requireIdentifiers.filter (fun ident => !checkSucceeded checkResults ident)

def statusCheckViolations (v : DefPullReq) (checkResults : List CheckResult) : List Violation :=
  let bad := violatingStatusCheckIdentifiers v checkResults
  if bad.length > 0 then
    [⟨codePullReqStatusChecksReqIdentifiers,
      "The following status checks are required to be completed successfully: " ++
        String.intercalate ", " bad⟩]
  else []

def mergeMethodName : MergeMethod → String
  | .merge => "merge"
  | .squash => "squash"
  | .rebase => "rebase"

def mergeStrategyViolations (v : DefPullReq) (method : Option MergeMethod) : List Violation :=
  match method with
  | some m =>
    if v.merge.strategiesAllowed.length > 0 ∧ ¬ v.merge.strategiesAllowed.contains m then
      [⟨codePullReqMergeStrategiesAllowed,
        "The requested merge strategy \"" ++ mergeMethodName m ++
          "\" is not allowed. Allowed strategies are [" ++
          String.intercalate " " (v.merge.strategiesAllowed.map mergeMethodName) ++ "]."⟩]
    else []
  | none => []

/-- The AllowedMethods output field: all methods when no method was requested
and the allowed list is unrestricted, the configured list when no method was
requested and a restriction exists, nil when a method was requested. -/
def allowedMethodsOf (v : DefPullReq) (method : Option MergeMethod) : List MergeMethod :=
  match method with
  | none =>
    if v.merge.strategiesAllowed.length > 0 then v.merge.strategiesAllowed else MergeMethods
  | some _ => []

/-- The full violation accumulator of one MergeVerify evaluation, in the
order the source appends: reviewer change-request violations, the
minimum-count violation, the code-owner violations (passed in, since that
stage may panic), the comments violation, the status-check violation, the
merge-strategy violation. -/
def mergeVerifyViolationList (v : DefPullReq) (inp : MergeVerifyInput)
    (coViolations : List Violation) : List Violation :=
  (reviewerScan v inp.pullReq.sourceSHA inp.reviewers).2 ++
    minCountViolations v (reviewerScan v inp.pullReq.sourceSHA inp.reviewers).1 ++
    coViolations ++ commentViolations v inp.pullReq ++
    statusCheckViolations v inp.checkResults ++ mergeStrategyViolations v inp.method

/-- DefPullReq.MergeVerify. The Go function returns
(output, []types.RuleViolations, error) and every return statement carries a
nil error; `some` embeds such a return, `none` embeds the nil-pointer panic of
the code-owner section. The violations value is returned as a one-element
slice when any violation was recorded, as nil otherwise. -/
def mergeVerify (v : DefPullReq) (inp : MergeVerifyInput) :
    Option (MergeVerifyOutput × List RuleViolations) :=
  match codeOwnerStage v inp with
  | none => none
  | some coViolations =>
    let allViolations := mergeVerifyViolationList v inp coViolations
    some
      ({ deleteSourceBranch := v.merge.deleteBranch,
         allowedMethods := allowedMethodsOf v inp.method },
       if allViolations.length > 0 then [⟨allViolations⟩] else [])

/-- Flattened list of all reported violations of a result. -/
def allViolationList (rvs : List RuleViolations) : List Violation :=
  rvs.flatMap RuleViolations.violations

/-- The reported violations carrying a given code. -/
def violationsWithCode (rvs : List RuleViolations) (code : String) : List Violation :=
  (allViolationList rvs).filter (fun viol => viol.code == code)

/-! ## Head-ref synchronizer (app/services/pullreq/handlers_head_ref.go) -/

inductive RefUpdateError where
  | mismatch
  deriving DecidableEq

/-- Modelled from the spec: the git backend capability
`UpdateRef(repo, name, type, newValue, oldValue) → error` is not among the
sources here; per the external-interface contract it must fail if `oldValue`
does not match the current value of the ref, where the empty string as
`oldValue` means the ref must not exist (create semantics). The ref state is
`none` while the ref does not exist; on success the ref holds the new value. -/
def updateRef (current : Option String) (newValue oldValue : String) :
    Except RefUpdateError (Option String) :=
  if oldValue = "" then
    match current with
    | none => .ok (some newValue)
    | some _ => .error .mismatch
  else
    match current with
    | some cur => if cur = oldValue then .ok (some newValue) else .error .mismatch
    | none => .error .mismatch

/-- createHeadRefOnCreated: new value is the event's source SHA, old value is
the empty string (the source comments that the ref is expected to not exist). -/
def createHeadRefOnCreated (current : Option String) (sourceSHA : String) :
    Except RefUpdateError (Option String) :=
  updateRef current sourceSHA ""

/-- updateHeadRefOnBranchUpdate: a CAS update from the event's old SHA to its
new SHA. -/
def updateHeadRefOnBranchUpdate (current : Option String) (oldSHA newSHA : String) :
    Except RefUpdateError (Option String) :=
  updateRef current newSHA oldSHA

/-- updateHeadRefOnReopen: new value is the event's source SHA, old value is
the empty string (the source comments that anything can be the old value). -/
def updateHeadRefOnReopen (current : Option String) (sourceSHA : String) :
    Except RefUpdateError (Option String) :=
  updateRef current sourceSHA ""

/-! ## Pull-request update (app/api/controller/pullreq/pr_update.go) -/

structure UpdateInput where
  title : String
  description : String
  deriving DecidableEq

/-- Go strings.TrimSpace, embedded over the character list: drop leading and
trailing whitespace. -/
def trimSpace (s : String) : String :=
  ⟨((s.data.dropWhile Char.isWhitespace).reverse.dropWhile Char.isWhitespace).reverse⟩

/-- UpdateInput.Check: trims both fields and rejects an empty trimmed title. -/
def checkUpdateInput (inp : UpdateInput) : Except String UpdateInput :=
  let t := trimSpace inp.title
  if t = "" then .error "pull request title cannot be empty"
  else .ok { title := t, description := trimSpace inp.description }

structure UpdateResult where
  pr : PullReq
  updateInvoked : Bool
  deriving DecidableEq

/-- The body of Controller.Update after the stores were consulted: if both
fields already match, the stored pull request is returned and the
optimistic-lock update is not invoked; otherwise the mutator sets title,
description and the edited time, and increments the activity sequence only
when the title changed. The store's optimistic-lock update advances the
version stamp on success (spec §3); `now` stands for time.Now. -/
def prUpdateCore (pr : PullReq) (inp : UpdateInput) (now : Int) : UpdateResult :=
  if pr.title = inp.title ∧ pr.description = inp.description then
    { pr := pr, updateInvoked := false }
  else
    { pr := { pr with
        title := inp.title,
        description := inp.description,
        edited := now,
        activitySeq := if inp.title ≠ pr.title then pr.activitySeq + 1 else pr.activitySeq,
        version := pr.version + 1 },
      updateInvoked := true }

/-- Controller.Update: input check followed by the update decision. -/
def prUpdate (pr : PullReq) (inp : UpdateInput) (now : Int) : Except String UpdateResult :=
  match checkUpdateInput inp with
  | .error e => .error e
  | .ok inp2 => .ok (prUpdateCore pr inp2 now)

/-! ## Post-receive hook (app/api/controller/githook/post_receive.go) -/

def NilSHA : String := "0000000000000000000000000000000000000000"

structure ReferenceUpdate where
  ref : String
  old : String
  new : String
  deriving DecidableEq

inductive BranchEvent where
  | created (ref sha : String)
  | deleted (ref sha : String)
  | updated (ref oldSHA newSHA : String) (forced : Bool)
  deriving DecidableEq

/-- reportBranchEvent. `isAncestor old new` stands for the
git.IsAncestor call with ancestor `old` and descendant `new`; an `error`
result embeds a non-nil error from the ancestry query. In that case the
source logs and treats the update as forced. -/
def reportBranchEvent (isAncestor : String → String → Except String Bool)
    (branchUpdate : ReferenceUpdate) : BranchEvent :=
  if branchUpdate.old = NilSHA then
    .created branchUpdate.ref branchUpdate.new
  else if branchUpdate.new = NilSHA then
    .deleted branchUpdate.ref branchUpdate.old
  else
    let forced :=
      match isAncestor branchUpdate.old branchUpdate.new with
      | .error _ => true
      | .ok ancestor => !ancestor
    .updated branchUpdate.ref branchUpdate.old branchUpdate.new forced

structure Repository where
  id : Int
  path : String
  defaultBranch : String
  deriving DecidableEq

structure PullReqInfo where
  number : Int
  title : String
  deriving DecidableEq

structure HookOutput where
  messages : List String
  deriving DecidableEq

def gitReferenceNamePrefixBranch : String := "refs/heads/"

/-- Go strings.HasPrefix, embedded over the character list. -/
def stringStartsWith (s pre : String) : Bool := pre.data.isPrefixOf s.data

/-- Go string slicing `s[n:]`, embedded over the character list (the sliced
prefix is ASCII, so byte and character counts agree). -/
def stringDropChars (s : String) (n : Nat) : String := ⟨s.data.drop n⟩

/-- suggestPullRequest. `listResult` stands for the pull-request store List
call (open PRs of this source repo and branch); an `error` result is logged
and produces no message. `genPRURL`/`genCompareURL` stand for the URL
provider. -/
def suggestPullRequest (repo : Repository) (branchName : String)
    (listResult : Except String (List PullReqInfo))
    (genPRURL : String → Int → String)
    (genCompareURL : String → String → String → String)
    (out : HookOutput) : HookOutput :=
  if branchName = repo.defaultBranch then out
  else
    match listResult with
    | .error _ => out
    | .ok prs =>
      if prs.length > 0 then
        { messages := out.messages ++
            (("Branch \"" ++ branchName ++ "\" has open PRs:") ::
              prs.flatMap (fun pr =>
                ["  (#" ++ toString pr.number ++ ") " ++ pr.title,
                 "    " ++ genPRURL repo.path pr.number])) }
      else
        { messages := out.messages ++
            ["Create a new PR for branch \"" ++ branchName ++ "\"",
             "  " ++ genCompareURL repo.path repo.defaultBranch branchName] }

/-- handlePRMessaging: skips anything that is a batch push, is not branch
related, or is not updating/creating a branch. -/
def handlePRMessaging (repo : Repository) (refUpdates : List ReferenceUpdate)
    (listResult : Except String (List PullReqInfo))
    (genPRURL : String → Int → String)
    (genCompareURL : String → String → String → String)
    (out : HookOutput) : HookOutput :=
  match refUpdates with
  | [u] =>
    if stringStartsWith u.ref gitReferenceNamePrefixBranch && !(u.new == NilSHA) then
      suggestPullRequest repo (stringDropChars u.ref gitReferenceNamePrefixBranch.length)
        listResult genPRURL genCompareURL out
    else out
  | _ => out

/-! # Helper lemmas -/

theorem two_le_length_of_mem_of_mem_of_ne {α : Type} {x y : α} {l : List α}
    (hx : x ∈ l) (hy : y ∈ l) (hxy : x ≠ y) : 2 ≤ l.length := by
  induction l with
  | nil => cases hx
  | cons a t ih =>
    rcases List.mem_cons.mp hx with rfl | hx2
    · rcases List.mem_cons.mp hy with rfl | hy2
      · exact absurd rfl hxy
      · have h1 := List.length_pos_of_mem hy2
        simp only [List.length_cons]
        omega
    · have h1 := List.length_pos_of_mem hx2
      simp only [List.length_cons]
      omega

theorem scanOwnerEvaluations_eq_none_iff (l : List OwnerEvaluation) :
    ∀ acc, scanOwnerEvaluations l acc = none ↔
      ∃ e ∈ l, e.reviewDecision = .changereq := by
  induction l with
  | nil => intro acc; simp [scanOwnerEvaluations]
  | cons o rest ih =>
    intro acc
    by_cases hc : o.reviewDecision = .changereq
    · simp [scanOwnerEvaluations, hc]
    · by_cases ha : o.reviewDecision = .approved
      · simp [scanOwnerEvaluations, hc, ha, ih]
      · simp [scanOwnerEvaluations, hc, ha, ih]

theorem scanOwnerEvaluations_eq_some (l : List OwnerEvaluation)
    (h : ∀ e ∈ l, e.reviewDecision ≠ .changereq) :
    ∀ acc, scanOwnerEvaluations l acc =
      some (acc ++ l.filter (fun e => e.reviewDecision == .approved)) := by
  induction l with
  | nil => intro acc; simp [scanOwnerEvaluations]
  | cons o rest ih =>
    intro acc
    have hc : o.reviewDecision ≠ .changereq := h o (List.mem_cons_self o rest)
    have hrest : ∀ e ∈ rest, e.reviewDecision ≠ .changereq :=
      fun e he => h e (List.mem_cons_of_mem o he)
    by_cases ha : o.reviewDecision = .approved
    · simp [scanOwnerEvaluations, hc, ha, ih hrest, List.filter_cons]
    · simp [scanOwnerEvaluations, hc, ha, ih hrest, List.filter_cons]

theorem scanUserGroupEvaluations_eq_none_iff (gs : List UserGroupOwnerEvaluation) :
    ∀ acc, scanUserGroupEvaluations gs acc = none ↔
      ∃ g ∈ gs, ∃ e ∈ g.evaluations, e.reviewDecision = .changereq := by
  induction gs with
  | nil => intro acc; simp [scanUserGroupEvaluations]
  | cons g rest ih =>
    intro acc
    cases hscan : scanOwnerEvaluations g.evaluations acc with
    | none =>
      have hg := (scanOwnerEvaluations_eq_none_iff g.evaluations acc).mp hscan
      simp only [scanUserGroupEvaluations, hscan, true_iff]
      exact ⟨g, List.mem_cons_self g rest, hg⟩
    | some acc2 =>
      have hg : ¬ ∃ e ∈ g.evaluations, e.reviewDecision = .changereq := by
        intro hcontra
        rw [(scanOwnerEvaluations_eq_none_iff g.evaluations acc).mpr hcontra] at hscan
        cases hscan
      simp [scanUserGroupEvaluations, hscan, ih, hg]

theorem scanUserGroupEvaluations_eq_some (gs : List UserGroupOwnerEvaluation)
    (h : ∀ g ∈ gs, ∀ e ∈ g.evaluations, e.reviewDecision ≠ .changereq) :
    ∀ acc, scanUserGroupEvaluations gs acc =
      some (acc ++ (gs.flatMap UserGroupOwnerEvaluation.evaluations).filter
        (fun e => e.reviewDecision == .approved)) := by
  induction gs with
  | nil => intro acc; simp [scanUserGroupEvaluations]
  | cons g rest ih =>
    intro acc
    have hg := h g (List.mem_cons_self g rest)
    have hrest : ∀ g2 ∈ rest, ∀ e ∈ g2.evaluations, e.reviewDecision ≠ .changereq :=
      fun g2 hg2 => h g2 (List.mem_cons_of_mem g hg2)
    simp [scanUserGroupEvaluations, scanOwnerEvaluations_eq_some g.evaluations hg,
      ih hrest, List.filter_append, List.append_assoc]

/-- C4: for every code-owner evaluation entry, any change-requested leaf (user
or group member) makes the aggregate decision change-requested regardless of
approvals; otherwise the aggregate is approved with all approving evaluations
collected when at least one approval exists, and pending when there are none. -/
theorem codeowner_aggregate_decision (entry : EvaluationEntry) :
    ((∃ e ∈ entryAllEvaluations entry, e.reviewDecision = .changereq) →
      (getCodeOwnerApprovalStatus entry).1 = .changereq) ∧
    ((∀ e ∈ entryAllEvaluations entry, e.reviewDecision ≠ .changereq) →
      (∃ e ∈ entryAllEvaluations entry, e.reviewDecision = .approved) →
      getCodeOwnerApprovalStatus entry =
        (.approved,
          (entryAllEvaluations entry).filter (fun e => e.reviewDecision == .approved))) ∧
    ((∀ e ∈ entryAllEvaluations entry, e.reviewDecision ≠ .changereq) →
      (∀ e ∈ entryAllEvaluations entry, e.reviewDecision ≠ .approved) →
      getCodeOwnerApprovalStatus entry = (.pending, [])) := by
  refine ⟨?_, ?_, ?_⟩
  · rintro ⟨e, he, hcr⟩
    simp only [entryAllEvaluations] at he
    rcases List.mem_append.mp he with hu | hgrp
    · have h1 : scanOwnerEvaluations entry.ownerEvaluations [] = none :=
        (scanOwnerEvaluations_eq_none_iff _ _).mpr ⟨e, hu, hcr⟩
      simp [getCodeOwnerApprovalStatus, h1]
    · by_cases husers : ∃ e2 ∈ entry.ownerEvaluations, e2.reviewDecision = .changereq
      · have h1 : scanOwnerEvaluations entry.ownerEvaluations [] = none :=
          (scanOwnerEvaluations_eq_none_iff _ _).mpr husers
        simp [getCodeOwnerApprovalStatus, h1]
      · push_neg at husers
        have h1 : scanOwnerEvaluations entry.ownerEvaluations [] =
            some (entry.ownerEvaluations.filter (fun e2 => e2.reviewDecision == .approved)) := by
          simpa using scanOwnerEvaluations_eq_some entry.ownerEvaluations husers []
        obtain ⟨g, hgmem, hemem⟩ := List.mem_flatMap.mp hgrp
        have h2 : scanUserGroupEvaluations entry.userGroupOwnerEvaluations
            (entry.ownerEvaluations.filter (fun e2 => e2.reviewDecision == .approved)) =
            none :=
          (scanUserGroupEvaluations_eq_none_iff _ _).mpr ⟨g, hgmem, e, hemem, hcr⟩
        simp [getCodeOwnerApprovalStatus, h1, h2]
  · intro hnocr hap
    have husers : ∀ e ∈ entry.ownerEvaluations, e.reviewDecision ≠ .changereq := by
      intro e he
      exact hnocr e (by simp [entryAllEvaluations, he])
    have hgroups : ∀ g ∈ entry.userGroupOwnerEvaluations,
        ∀ e ∈ g.evaluations, e.reviewDecision ≠ .changereq := by
      intro g hgm e he
      exact hnocr e (by
        simp only [entryAllEvaluations, List.mem_append, List.mem_flatMap]
        exact Or.inr ⟨g, hgm, he⟩)
    have h1 : scanOwnerEvaluations entry.ownerEvaluations [] =
        some (entry.ownerEvaluations.filter (fun e => e.reviewDecision == .approved)) := by
      simpa using scanOwnerEvaluations_eq_some entry.ownerEvaluations husers []
    have h2 : scanUserGroupEvaluations entry.userGroupOwnerEvaluations
        (entry.ownerEvaluations.filter (fun e => e.reviewDecision == .approved)) =
        some ((entryAllEvaluations entry).filter (fun e => e.reviewDecision == .approved)) := by
      simpa [entryAllEvaluations, List.filter_append] using
        scanUserGroupEvaluations_eq_some entry.userGroupOwnerEvaluations hgroups
          (entry.ownerEvaluations.filter (fun e => e.reviewDecision == .approved))
    obtain ⟨e, he, hea⟩ := hap
    have hmem : e ∈ (entryAllEvaluations entry).filter (fun e => e.reviewDecision == .approved) :=
      List.mem_filter.mpr ⟨he, by simp [hea]⟩
    have hlen := List.length_pos_of_mem hmem
    simp [getCodeOwnerApprovalStatus, h1, h2, hlen]
  · intro hnocr hnoap
    have husers : ∀ e ∈ entry.ownerEvaluations, e.reviewDecision ≠ .changereq := by
      intro e he
      exact hnocr e (by simp [entryAllEvaluations, he])
    have hgroups : ∀ g ∈ entry.userGroupOwnerEvaluations,
        ∀ e ∈ g.evaluations, e.reviewDecision ≠ .changereq := by
      intro g hgm e he
      exact hnocr e (by
        simp only [entryAllEvaluations, List.mem_append, List.mem_flatMap]
        exact Or.inr ⟨g, hgm, he⟩)
    have h1 : scanOwnerEvaluations entry.ownerEvaluations [] =
        some (entry.ownerEvaluations.filter (fun e => e.reviewDecision == .approved)) := by
      simpa using scanOwnerEvaluations_eq_some entry.ownerEvaluations husers []
    have h2 : scanUserGroupEvaluations entry.userGroupOwnerEvaluations
        (entry.ownerEvaluations.filter (fun e => e.reviewDecision == .approved)) =
        some ((entryAllEvaluations entry).filter (fun e => e.reviewDecision == .approved)) := by
      simpa [entryAllEvaluations, List.filter_append] using
        scanUserGroupEvaluations_eq_some entry.userGroupOwnerEvaluations hgroups
          (entry.ownerEvaluations.filter (fun e => e.reviewDecision == .approved))
    have hnil : (entryAllEvaluations entry).filter (fun e => e.reviewDecision == .approved) = [] := by
      rw [List.filter_eq_nil_iff]
      intro e he
      simp only [beq_iff_eq]
      exact hnoap e he
    simp [getCodeOwnerApprovalStatus, h1, h2, hnil]

/-- C4 witness: a single change-requested group member vetoes a pattern that
also has a user approval. -/
theorem codeowner_aggregate_decision_witness :
    (getCodeOwnerApprovalStatus
      { pattern := "*",
        ownerEvaluations := [⟨⟨1, "u"⟩, .approved, "s"⟩],
        userGroupOwnerEvaluations := [⟨"g", [⟨⟨2, "w"⟩, .changereq, "s"⟩]⟩] }).1
      = .changereq :=
  (codeowner_aggregate_decision _).1 (by decide)


/-- C7: for a branch ref update with non-nil old and new hashes, the emitted
BranchUpdated event's forced flag is true whenever the ancestry query errors,
and in general equals: query errored, or the old hash is not an ancestor of
the new hash. -/
theorem branch_update_forced (isAnc : String → String → Except String Bool)
    (u : ReferenceUpdate) (h1 : u.old ≠ NilSHA) (h2 : u.new ≠ NilSHA) :
    (∀ e, isAnc u.old u.new = .error e →
      reportBranchEvent isAnc u = .updated u.ref u.old u.new true) ∧
    (∀ a, isAnc u.old u.new = .ok a →
      reportBranchEvent isAnc u = .updated u.ref u.old u.new (!a)) := by
  constructor
  · intro e he
    simp [reportBranchEvent, h1, h2, he]
  · intro a ha
    simp [reportBranchEvent, h1, h2, ha]

/-- C7 witness: an erroring ancestry oracle yields a forced BranchUpdated
event. -/
theorem branch_update_forced_witness :
    reportBranchEvent (fun _ _ => .error "boom") ⟨"refs/heads/b", "a", "c"⟩ =
      .updated "refs/heads/b" "a" "c" true :=
  (branch_update_forced (fun _ _ => .error "boom") ⟨"refs/heads/b", "a", "c"⟩
    (by decide) (by decide)).1 "boom" rfl

/-- C5: both head-ref handlers pass the empty string as the expected old
value; under the backend contract that the empty string means the ref must
not exist, the Reopened update is not permissive: it fails whenever the head
ref currently exists, exactly like the Created update, and succeeds only when
the ref is absent. -/
theorem head_ref_reopen_requires_absent_ref :
    updateHeadRefOnReopen (some "a1b2c3") "d4e5f6" = .error .mismatch ∧
    createHeadRefOnCreated (some "a1b2c3") "d4e5f6" = .error .mismatch ∧
    createHeadRefOnCreated none "d4e5f6" = .ok (some "d4e5f6") ∧
    updateHeadRefOnReopen none "d4e5f6" = .ok (some "d4e5f6") :=
  ⟨rfl, rfl, rfl, rfl⟩

/-- C10: an Update call whose trimmed title and description equal the stored
values returns the stored pull request unchanged (same title, description,
activity sequence, edited time and version) without invoking the
optimistic-lock update. -/
theorem pr_update_noop (pr : PullReq) (inp : UpdateInput) (now : Int)
    (ht : trimSpace inp.title = pr.title) (hd : trimSpace inp.description = pr.description)
    (hne : pr.title ≠ "") :
    prUpdate pr inp now = .ok { pr := pr, updateInvoked := false } := by
  simp [prUpdate, checkUpdateInput, ht, hd, hne, prUpdateCore]

/-- C10 witness. -/
theorem pr_update_noop_witness :
    prUpdate
      { title := "t", description := "d", sourceSHA := "s", unresolvedCount := 0,
        activitySeq := 4, edited := 1, version := 2 }
      { title := " t ", description := " d " } 9 =
      .ok { pr := { title := "t", description := "d", sourceSHA := "s", unresolvedCount := 0,
                    activitySeq := 4, edited := 1, version := 2 },
            updateInvoked := false } :=
  pr_update_noop _ _ 9 (by decide) (by decide) (by decide)

/-- C6 (amended): when Update invokes the optimistic-lock store update, the
activity sequence is incremented exactly when the trimmed title differs from
the stored title; a description-only change performs the update without
incrementing the activity sequence. -/
theorem pr_update_activity_seq (pr : PullReq) (inp : UpdateInput) (now : Int)
    (res : UpdateResult) (h : prUpdate pr inp now = .ok res) :
    (res.updateInvoked = true ∧ trimSpace inp.title ≠ pr.title →
      res.pr.activitySeq = pr.activitySeq + 1) ∧
    (res.updateInvoked = true ∧ trimSpace inp.title = pr.title →
      res.pr.activitySeq = pr.activitySeq) := by
  unfold prUpdate at h
  cases hc : checkUpdateInput inp with
  | error e => rw [hc] at h; cases h
  | ok inp2 =>
    rw [hc] at h
    injection h with h
    have hinp2 : inp2.title = trimSpace inp.title := by
      simp only [checkUpdateInput] at hc
      by_cases hemp : trimSpace inp.title = ""
      · rw [if_pos hemp] at hc; cases hc
      · rw [if_neg hemp] at hc
        injection hc with hc
        rw [← hc]
    subst h
    unfold prUpdateCore
    by_cases hno : pr.title = inp2.title ∧ pr.description = inp2.description
    · rw [if_pos hno]
      exact ⟨fun hx => absurd hx.1 (by simp), fun hx => absurd hx.1 (by simp)⟩
    · rw [if_neg hno]
      constructor
      · rintro ⟨-, hne⟩
        show (if inp2.title ≠ pr.title then pr.activitySeq + 1 else pr.activitySeq) =
          pr.activitySeq + 1
        rw [hinp2, if_pos hne]
      · rintro ⟨-, heq⟩
        show (if inp2.title ≠ pr.title then pr.activitySeq + 1 else pr.activitySeq) =
          pr.activitySeq
        rw [hinp2, if_neg (fun hcontra => hcontra heq)]


/-- C6 witness: a title change through a successful Update increments the
activity sequence. -/
theorem pr_update_activity_seq_witness :
    ((({ pr := ⟨"u", "d", "s", 0, 6, 7, 3⟩, updateInvoked := true } : UpdateResult).updateInvoked = true ∧
        trimSpace "u" ≠ "t") →
      ({ pr := ⟨"u", "d", "s", 0, 6, 7, 3⟩, updateInvoked := true } : UpdateResult).pr.activitySeq =
        5 + 1) ∧
    ((({ pr := ⟨"u", "d", "s", 0, 6, 7, 3⟩, updateInvoked := true } : UpdateResult).updateInvoked = true ∧
        trimSpace "u" = "t") →
      ({ pr := ⟨"u", "d", "s", 0, 6, 7, 3⟩, updateInvoked := true } : UpdateResult).pr.activitySeq =
        5) :=
  pr_update_activity_seq ⟨"t", "d", "s", 0, 5, 1, 2⟩ ⟨"u", "d"⟩ 7 _ rfl

/-- C6 counterexample: a successful Update that changes only the description
invokes the optimistic-lock store update and sets the description and the
edited time, but the activity sequence stays at 5 instead of being
incremented. -/
theorem pr_update_desc_only_cex :
    prUpdate ⟨"t", "a", "s", 0, 5, 0, 3⟩ ⟨"t", "b"⟩ 7 =
      .ok { pr := ⟨"t", "b", "s", 0, 5, 7, 4⟩, updateInvoked := true } := rfl

/-- C9: PR-suggestion messages are added only for a push with exactly one ref
update whose ref carries the branch prefix, whose new hash is not the nil
SHA, and whose branch is not the default branch; every other push leaves the
hook output unchanged. -/
theorem pr_messaging_only_single_branch_push (repo : Repository)
    (refUpdates : List ReferenceUpdate) (listResult : Except String (List PullReqInfo))
    (genPRURL : String → Int → String) (genCompareURL : String → String → String → String)
    (out : HookOutput)
    (h : handlePRMessaging repo refUpdates listResult genPRURL genCompareURL out ≠ out) :
    refUpdates.length = 1 ∧
    ∀ u ∈ refUpdates,
      stringStartsWith u.ref gitReferenceNamePrefixBranch = true ∧
      u.new ≠ NilSHA ∧
      stringDropChars u.ref gitReferenceNamePrefixBranch.length ≠ repo.defaultBranch := by
  match refUpdates with
  | [] => exact absurd rfl h
  | u1 :: u2 :: rest => exact absurd rfl h
  | [u] =>
    by_cases hguard :
        (stringStartsWith u.ref gitReferenceNamePrefixBranch && !(u.new == NilSHA)) = true
    · refine ⟨rfl, ?_⟩
      intro x hx
      have hxu : x = u := by simpa using hx
      subst hxu
      have hsn := hguard
      rw [Bool.and_eq_true] at hsn
      obtain ⟨hs, hn⟩ := hsn
      have hnew : x.new ≠ NilSHA := by simpa using hn
      refine ⟨hs, hnew, ?_⟩
      intro hdef
      apply h
      simp only [handlePRMessaging]
      rw [if_pos hguard]
      simp only [suggestPullRequest]
      rw [if_pos hdef]
    · refine absurd ?_ h
      simp only [handlePRMessaging]
      rw [if_neg hguard]

/-- C9 witness: a single-ref branch-create push to a non-default branch does
add messages, and the theorem instantiates on it. -/
theorem pr_messaging_only_single_branch_push_witness :
    ([(⟨"refs/heads/f", "0000000000000000000000000000000000000000", "abc"⟩ : ReferenceUpdate)].length = 1) ∧
    ∀ u ∈ [(⟨"refs/heads/f", "0000000000000000000000000000000000000000", "abc"⟩ : ReferenceUpdate)],
      stringStartsWith u.ref gitReferenceNamePrefixBranch = true ∧
      u.new ≠ NilSHA ∧
      stringDropChars u.ref gitReferenceNamePrefixBranch.length ≠
        ({ id := 1, path := "p", defaultBranch := "main" } : Repository).defaultBranch :=
  pr_messaging_only_single_branch_push { id := 1, path := "p", defaultBranch := "main" }
    _ (.ok []) (fun _ _ => "u1") (fun _ _ _ => "u2") ⟨[]⟩ (by decide)


/-! # MergeVerify plumbing lemmas -/

theorem mergeVerify_some (v : DefPullReq) (inp : MergeVerifyInput)
    (out : MergeVerifyOutput) (rvs : List RuleViolations)
    (hmv : mergeVerify v inp = some (out, rvs)) :
    ∃ coViolations, codeOwnerStage v inp = some coViolations ∧
      rvs = (if (mergeVerifyViolationList v inp coViolations).length > 0
        then [⟨mergeVerifyViolationList v inp coViolations⟩] else []) := by
  cases hco : codeOwnerStage v inp with
  | none => rw [mergeVerify, hco] at hmv; cases hmv
  | some coV =>
    refine ⟨coV, rfl, ?_⟩
    rw [mergeVerify, hco] at hmv
    simp only [Option.some.injEq, Prod.mk.injEq] at hmv
    exact hmv.2.symm

theorem violationsWithCode_pack (l : List Violation) (c : String) :
    violationsWithCode (if l.length > 0 then [⟨l⟩] else []) c =
      l.filter (fun viol => viol.code == c) := by
  by_cases h : l.length > 0
  · rw [if_pos h]
    simp [violationsWithCode, allViolationList]
  · rw [if_neg h]
    have hl : l = [] := List.length_eq_zero.mp (by omega)
    subst hl
    simp [violationsWithCode, allViolationList]

theorem allViolationList_pack (l : List Violation) :
    allViolationList (if l.length > 0 then [⟨l⟩] else []) = l := by
  by_cases h : l.length > 0
  · rw [if_pos h]
    simp [allViolationList]
  · rw [if_neg h]
    have hl : l = [] := List.length_eq_zero.mp (by omega)
    subst hl
    simp [allViolationList]

theorem filter_eq_nil_of_codes (l : List Violation) (c : String)
    (h : ∀ viol ∈ l, viol.code ≠ c) :
    l.filter (fun viol => viol.code == c) = [] := by
  rw [List.filter_eq_nil_iff]
  intro a ha
  simp only [beq_iff_eq]
  exact h a ha

theorem reviewerScan_snd_codes (v : DefPullReq) (s : String) (rs : List PullReqReviewer) :
    ∀ viol ∈ (reviewerScan v s rs).2,
      viol.code = codePullReqApprovalReqChangeRequested ∨
      viol.code = codePullReqApprovalReqChangeRequestedOldSHA := by
  induction rs with
  | nil => intro viol hv; simp [reviewerScan] at hv
  | cons r rest ih =>
    intro viol hv
    cases hd : r.reviewDecision
    case pending =>
      simp only [reviewerScan, hd] at hv
      exact ih viol hv
    case reviewed =>
      simp only [reviewerScan, hd] at hv
      exact ih viol hv
    case approved =>
      simp only [reviewerScan, hd] at hv
      split at hv
      · exact ih viol hv
      · exact ih viol (by simpa using hv)
    case changereq =>
      simp only [reviewerScan, hd] at hv
      split at hv
      · split at hv
        · rcases List.mem_cons.mp (by simpa using hv) with rfl | hmem
          · left; rfl
          · exact ih viol hmem
        · rcases List.mem_cons.mp (by simpa using hv) with rfl | hmem
          · right; rfl
          · exact ih viol hmem
      · exact ih viol hv

theorem minCountViolations_codes (v : DefPullReq) (ab : List PrincipalInfo) :
    ∀ viol ∈ minCountViolations v ab,
      viol.code = codePullReqApprovalReqMinCount ∨
      viol.code = codePullReqApprovalReqMinCountLatest := by
  intro viol hv
  unfold minCountViolations at hv
  split at hv
  · split at hv
    · right; rw [List.mem_singleton.mp hv]
    · left; rw [List.mem_singleton.mp hv]
  · cases hv

theorem codeOwnerEntryViolations_codes (v : DefPullReq) (s : String) (entry : EvaluationEntry) :
    ∀ viol ∈ codeOwnerEntryViolations v s entry,
      viol.code = codePullReqApprovalReqCodeOwnersNoApproval ∨
      viol.code = codePullReqApprovalReqCodeOwnersChangeRequested ∨
      viol.code = codePullReqApprovalReqCodeOwnersNoLatestApproval := by
  intro viol hv
  simp only [codeOwnerEntryViolations] at hv
  split at hv
  · left; rw [List.mem_singleton.mp hv]
  · split at hv
    · right; left; rw [List.mem_singleton.mp hv]
    · split at hv
      · cases hv
      · split at hv
        · cases hv
        · right; right; rw [List.mem_singleton.mp hv]

theorem codeOwnerStage_codes (v : DefPullReq) (inp : MergeVerifyInput)
    (coV : List Violation) (hco : codeOwnerStage v inp = some coV) :
    ∀ viol ∈ coV,
      viol.code = codePullReqApprovalReqCodeOwnersNoApproval ∨
      viol.code = codePullReqApprovalReqCodeOwnersChangeRequested ∨
      viol.code = codePullReqApprovalReqCodeOwnersNoLatestApproval := by
  intro viol hv
  unfold codeOwnerStage at hco
  split at hco
  · cases hopt : inp.codeOwners with
    | none => rw [hopt] at hco; cases hco
    | some ev =>
      rw [hopt] at hco
      injection hco with hco
      subst hco
      obtain ⟨entry, hentry, hvm⟩ := List.mem_flatMap.mp hv
      exact codeOwnerEntryViolations_codes v inp.pullReq.sourceSHA entry viol hvm
  · injection hco with hco
    subst hco
    cases hv

theorem commentViolations_codes (v : DefPullReq) (pr : PullReq) :
    ∀ viol ∈ commentViolations v pr, viol.code = codePullReqCommentsReqResolveAll := by
  intro viol hv
  unfold commentViolations at hv
  split at hv
  · rw [List.mem_singleton.mp hv]
  · cases hv

theorem statusCheckViolations_codes (v : DefPullReq) (results : List CheckResult) :
    ∀ viol ∈ statusCheckViolations v results,
      viol.code = codePullReqStatusChecksReqIdentifiers := by
  intro viol hv
  simp only [statusCheckViolations] at hv
  split at hv
  · rw [List.mem_singleton.mp hv]
  · cases hv

theorem mergeStrategyViolations_codes (v : DefPullReq) (method : Option MergeMethod) :
    ∀ viol ∈ mergeStrategyViolations v method,
      viol.code = codePullReqMergeStrategiesAllowed := by
  intro viol hv
  unfold mergeStrategyViolations at hv
  split at hv
  · split at hv
    · rw [List.mem_singleton.mp hv]
    · cases hv
  · cases hv

theorem filter_code_singleton_ne (c0 msg c : String) (h : c0 ≠ c) :
    ([⟨c0, msg⟩] : List Violation).filter (fun viol => viol.code == c) = [] :=
  filter_eq_nil_of_codes _ _ (fun viol hv => by rw [List.mem_singleton.mp hv]; exact h)

theorem filter_code_singleton_eq (c0 msg : String) :
    ([⟨c0, msg⟩] : List Violation).filter (fun viol => viol.code == c0) = [⟨c0, msg⟩] := by
  simp [List.filter]

theorem reviewerScan_fst (v : DefPullReq) (s : String) (rs : List PullReqReviewer) :
    (reviewerScan v s rs).1 =
      (rs.filter (qualifiesAsApproval v s)).map PullReqReviewer.reviewer := by
  induction rs with
  | nil => simp [reviewerScan]
  | cons r rest ih =>
    cases hd : r.reviewDecision
    case approved =>
      by_cases hl : v.approvals.requireLatestCommit = true <;>
        by_cases hs : r.sha = s <;>
          simp [reviewerScan, hd, hl, hs, qualifiesAsApproval, ih, List.filter_cons]
    case changereq =>
      by_cases hreq : v.approvals.requireNoChangeRequest = true <;>
        by_cases hs : r.sha = s <;>
          simp [reviewerScan, hd, hreq, hs, qualifiesAsApproval, ih, List.filter_cons]
    case pending =>
      simp [reviewerScan, hd, qualifiesAsApproval, ih, List.filter_cons]
    case reviewed =>
      simp [reviewerScan, hd, qualifiesAsApproval, ih, List.filter_cons]

theorem checkSucceeded_eq_any (results : List CheckResult) (ident : String)
    (hpw : results.Pairwise (fun a b => a.identifier ≠ b.identifier)) :
    checkSucceeded results ident =
      results.any (fun c => c.identifier == ident && c.status == CheckStatus.success) := by
  induction results with
  | nil => rfl
  | cons r rest ih =>
    obtain ⟨hhd, hpw2⟩ := List.pairwise_cons.mp hpw
    by_cases hid : r.identifier = ident
    · have hfind : List.find? (fun c => c.identifier == ident) (r :: rest) = some r :=
        List.find?_cons_of_pos _ (by simp [hid])
    
      have hrest : rest.any
          (fun c => c.identifier == ident && c.status == CheckStatus.success) = false := by
        rw [List.any_eq_false]
        intro c hc hpc
        rw [Bool.and_eq_true] at hpc
        obtain ⟨hcid, -⟩ := hpc
        rw [beq_iff_eq] at hcid
        exact hhd c hc (hid.trans hcid.symm)
      simp [checkSucceeded, hfind, hrest, hid]
    · have hfind : List.find? (fun c => c.identifier == ident) (r :: rest) =
          List.find? (fun c => c.identifier == ident) rest :=
        List.find?_cons_of_neg _ (by simp [hid])
      have hr : (r.identifier == ident && r.status == CheckStatus.success) = false := by
        simp [hid]
      simp only [checkSucceeded, hfind, List.any_cons, hr, Bool.false_or]
      simpa [checkSucceeded] using ih hpw2

theorem violationsWithCode_eq_stage (v : DefPullReq) (inp : MergeVerifyInput)
    (out : MergeVerifyOutput) (rvs : List RuleViolations) (coV : List Violation)
    (hmv : mergeVerify v inp = some (out, rvs))
    (hco : codeOwnerStage v inp = some coV) (c : String) :
    violationsWithCode rvs c =
      ((reviewerScan v inp.pullReq.sourceSHA inp.reviewers).2.filter
          (fun viol => viol.code == c)) ++
        ((minCountViolations v (reviewerScan v inp.pullReq.sourceSHA inp.reviewers).1).filter
          (fun viol => viol.code == c)) ++
        (coV.filter (fun viol => viol.code == c)) ++
        ((commentViolations v inp.pullReq).filter (fun viol => viol.code == c)) ++
        ((statusCheckViolations v inp.checkResults).filter (fun viol => viol.code == c)) ++
        ((mergeStrategyViolations v inp.method).filter (fun viol => viol.code == c)) := by
  obtain ⟨coV2, hco2, hrvs⟩ := mergeVerify_some v inp out rvs hmv
  rw [hco] at hco2
  injection hco2 with hco2
  subst hco2
  subst hrvs
  rw [violationsWithCode_pack]
  simp [mergeVerifyViolationList, List.filter_append]

theorem violationsWithCode_minStage (v : DefPullReq) (inp : MergeVerifyInput)
    (out : MergeVerifyOutput) (rvs : List RuleViolations) (coV : List Violation)
    (hmv : mergeVerify v inp = some (out, rvs))
    (hco : codeOwnerStage v inp = some coV) (c : String)
    (h1 : c ≠ codePullReqApprovalReqChangeRequested)
    (h2 : c ≠ codePullReqApprovalReqChangeRequestedOldSHA)
    (h3 : c ≠ codePullReqApprovalReqCodeOwnersNoApproval)
    (h4 : c ≠ codePullReqApprovalReqCodeOwnersChangeRequested)
    (h5 : c ≠ codePullReqApprovalReqCodeOwnersNoLatestApproval)
    (h6 : c ≠ codePullReqCommentsReqResolveAll)
    (h7 : c ≠ codePullReqStatusChecksReqIdentifiers)
    (h8 : c ≠ codePullReqMergeStrategiesAllowed) :
    violationsWithCode rvs c =
      (minCountViolations v (reviewerScan v inp.pullReq.sourceSHA inp.reviewers).1).filter
        (fun viol => viol.code == c) := by
  rw [violationsWithCode_eq_stage v inp out rvs coV hmv hco c]
  rw [filter_eq_nil_of_codes (reviewerScan v inp.pullReq.sourceSHA inp.reviewers).2 c
    (fun viol hv => by
    rcases reviewerScan_snd_codes v inp.pullReq.sourceSHA inp.reviewers viol hv with h | h
    · rw [h]; exact fun hc => h1 hc.symm
    · rw [h]; exact fun hc => h2 hc.symm)]
  rw [filter_eq_nil_of_codes coV c (fun viol hv => by
    rcases codeOwnerStage_codes v inp coV hco viol hv with h | h | h
    · rw [h]; exact fun hc => h3 hc.symm
    · rw [h]; exact fun hc => h4 hc.symm
    · rw [h]; exact fun hc => h5 hc.symm)]
  rw [filter_eq_nil_of_codes (commentViolations v inp.pullReq) c (fun viol hv => by
    rw [commentViolations_codes v inp.pullReq viol hv]; exact fun hc => h6 hc.symm)]
  rw [filter_eq_nil_of_codes (statusCheckViolations v inp.checkResults) c (fun viol hv => by
    rw [statusCheckViolations_codes v inp.checkResults viol hv]; exact fun hc => h7 hc.symm)]
  rw [filter_eq_nil_of_codes (mergeStrategyViolations v inp.method) c (fun viol hv => by
    rw [mergeStrategyViolations_codes v inp.method viol hv]; exact fun hc => h8 hc.symm)]
  simp

theorem violationsWithCode_statusStage (v : DefPullReq) (inp : MergeVerifyInput)
    (out : MergeVerifyOutput) (rvs : List RuleViolations) (coV : List Violation)
    (hmv : mergeVerify v inp = some (out, rvs))
    (hco : codeOwnerStage v inp = some coV) (c : String)
    (h1 : c ≠ codePullReqApprovalReqChangeRequested)
    (h2 : c ≠ codePullReqApprovalReqChangeRequestedOldSHA)
    (h3 : c ≠ codePullReqApprovalReqMinCount)
    (h4 : c ≠ codePullReqApprovalReqMinCountLatest)
    (h5 : c ≠ codePullReqApprovalReqCodeOwnersNoApproval)
    (h6 : c ≠ codePullReqApprovalReqCodeOwnersChangeRequested)
    (h7 : c ≠ codePullReqApprovalReqCodeOwnersNoLatestApproval)
    (h8 : c ≠ codePullReqCommentsReqResolveAll)
    (h9 : c ≠ codePullReqMergeStrategiesAllowed) :
    violationsWithCode rvs c =
      (statusCheckViolations v inp.checkResults).filter (fun viol => viol.code == c) := by
  rw [violationsWithCode_eq_stage v inp out rvs coV hmv hco c]
  rw [filter_eq_nil_of_codes (reviewerScan v inp.pullReq.sourceSHA inp.reviewers).2 c
    (fun viol hv => by
    rcases reviewerScan_snd_codes v inp.pullReq.sourceSHA inp.reviewers viol hv with h | h
    · rw [h]; exact fun hc => h1 hc.symm
    · rw [h]; exact fun hc => h2 hc.symm)]
  rw [filter_eq_nil_of_codes
    (minCountViolations v (reviewerScan v inp.pullReq.sourceSHA inp.reviewers).1) c
    (fun viol hv => by
    rcases minCountViolations_codes v (reviewerScan v inp.pullReq.sourceSHA inp.reviewers).1
        viol hv with h | h
    · rw [h]; exact fun hc => h3 hc.symm
    · rw [h]; exact fun hc => h4 hc.symm)]
  rw [filter_eq_nil_of_codes coV c (fun viol hv => by
    rcases codeOwnerStage_codes v inp coV hco viol hv with h | h | h
    · rw [h]; exact fun hc => h5 hc.symm
    · rw [h]; exact fun hc => h6 hc.symm
    · rw [h]; exact fun hc => h7 hc.symm)]
  rw [filter_eq_nil_of_codes (commentViolations v inp.pullReq) c (fun viol hv => by
    rw [commentViolations_codes v inp.pullReq viol hv]; exact fun hc => h8 hc.symm)]
  rw [filter_eq_nil_of_codes (mergeStrategyViolations v inp.method) c (fun viol hv => by
    rw [mergeStrategyViolations_codes v inp.method viol hv]; exact fun hc => h9 hc.symm)]
  simp

/-- C2: a reviewer counts as a qualifying approval exactly when approved and,
under require-latest-commit, recorded at the current source SHA
(`qualifiesAsApproval`); with minimum count n, exactly n-1 qualifying
approvals yields exactly one minimum-count violation, in its latest-commit
variant when require-latest-commit is set and only that variant; n qualifying
approvals yields no minimum-count violation of either code. -/
theorem merge_verify_min_approvals (v : DefPullReq) (inp : MergeVerifyInput)
    (out : MergeVerifyOutput) (rvs : List RuleViolations)
    (hmv : mergeVerify v inp = some (out, rvs)) :
    (((inp.reviewers.filter (qualifiesAsApproval v inp.pullReq.sourceSHA)).length : Int) =
        v.approvals.requireMinimumCount - 1 →
      (violationsWithCode rvs (if v.approvals.requireLatestCommit then
          codePullReqApprovalReqMinCountLatest else codePullReqApprovalReqMinCount)).length = 1 ∧
      violationsWithCode rvs (if v.approvals.requireLatestCommit then
          codePullReqApprovalReqMinCount else codePullReqApprovalReqMinCountLatest) = []) ∧
    (((inp.reviewers.filter (qualifiesAsApproval v inp.pullReq.sourceSHA)).length : Int) =
        v.approvals.requireMinimumCount →
      violationsWithCode rvs codePullReqApprovalReqMinCount = [] ∧
      violationsWithCode rvs codePullReqApprovalReqMinCountLatest = []) := by
  obtain ⟨coV, hco, -⟩ := mergeVerify_some v inp out rvs hmv
  have hq : (reviewerScan v inp.pullReq.sourceSHA inp.reviewers).1.length =
      (inp.reviewers.filter (qualifiesAsApproval v inp.pullReq.sourceSHA)).length := by
    rw [reviewerScan_fst, List.length_map]
  have hplain := violationsWithCode_minStage v inp out rvs coV hmv hco
    codePullReqApprovalReqMinCount (by decide) (by decide) (by decide) (by decide)
    (by decide) (by decide) (by decide) (by decide)
  have hlatest := violationsWithCode_minStage v inp out rvs coV hmv hco
    codePullReqApprovalReqMinCountLatest (by decide) (by decide) (by decide) (by decide)
    (by decide) (by decide) (by decide) (by decide)
  constructor
  · intro hcnt
    have hlt : ((reviewerScan v inp.pullReq.sourceSHA inp.reviewers).1.length : Int) <
        v.approvals.requireMinimumCount := by
      rw [hq]; omega
    by_cases hl : v.approvals.requireLatestCommit = true
    · constructor
      · rw [if_pos hl, hlatest]
        unfold minCountViolations
        rw [if_pos hlt, if_pos hl, filter_code_singleton_eq]
        rfl
      · rw [if_pos hl, hplain]
        unfold minCountViolations
        rw [if_pos hlt, if_pos hl]
        exact filter_code_singleton_ne _ _ _ (by decide)
    · constructor
      · rw [if_neg hl, hplain]
        unfold minCountViolations
        rw [if_pos hlt, if_neg hl, filter_code_singleton_eq]
        rfl
      · rw [if_neg hl, hlatest]
        unfold minCountViolations
        rw [if_pos hlt, if_neg hl]
        exact filter_code_singleton_ne _ _ _ (by decide)
  · intro hcnt
    have hge : ¬ ((reviewerScan v inp.pullReq.sourceSHA inp.reviewers).1.length : Int) <
        v.approvals.requireMinimumCount := by
      rw [hq]; omega
    constructor
    · rw [hplain]
      unfold minCountViolations
      rw [if_neg hge]
      rfl
    · rw [hlatest]
      unfold minCountViolations
      rw [if_neg hge]
      rfl

/-- C2 witness: minimum count 2, one qualifying approval: exactly one
plain minimum-count violation and no latest-commit variant. -/
theorem merge_verify_min_approvals_witness :
    (violationsWithCode
        [⟨[⟨codePullReqApprovalReqMinCount,
            "Insufficient number of approvals. Have 1 but need at least 2."⟩]⟩]
        codePullReqApprovalReqMinCount).length = 1 ∧
    violationsWithCode
        [⟨[⟨codePullReqApprovalReqMinCount,
            "Insufficient number of approvals. Have 1 but need at least 2."⟩]⟩]
        codePullReqApprovalReqMinCountLatest = [] :=
  (merge_verify_min_approvals
    ⟨⟨false, 2, false, false⟩, ⟨false⟩, ⟨[]⟩, ⟨[], false⟩⟩
    ⟨⟨"t", "d", "s", 0, 0, 0, 0⟩, [⟨⟨1, "alice"⟩, .approved, "s"⟩], none, [], none⟩
    ⟨false, MergeMethods⟩ _ rfl).1 (by decide)

/-- C1 (amended): when the identifiers in the check-result list are pairwise
distinct, a required identifier is satisfied exactly when some check result
with that identifier has status success; all unsatisfied identifiers are
reported together in exactly one violation listing them all, and no
status-check violation is emitted when every required identifier is
satisfied. (The code consults only the first check result with a matching
identifier, so the distinctness assumption is needed.) -/
theorem merge_verify_status_checks (v : DefPullReq) (inp : MergeVerifyInput)
    (out : MergeVerifyOutput) (rvs : List RuleViolations)
    (hpw : inp.checkResults.Pairwise (fun a b => a.identifier ≠ b.identifier))
    (hmv : mergeVerify v inp = some (out, rvs)) :
    (v.statusChecks.requireIdentifiers.filter (fun ident =>
        !inp.checkResults.any (fun c =>
          c.identifier == ident && c.status == CheckStatus.success)) = [] →
      violationsWithCode rvs codePullReqStatusChecksReqIdentifiers = []) ∧
    (v.statusChecks.requireIdentifiers.filter (fun ident =>
        !inp.checkResults.any (fun c =>
          c.identifier == ident && c.status == CheckStatus.success)) ≠ [] →
      violationsWithCode rvs codePullReqStatusChecksReqIdentifiers =
        [⟨codePullReqStatusChecksReqIdentifiers,
          "The following status checks are required to be completed successfully: " ++
            String.intercalate ", "
              (v.statusChecks.requireIdentifiers.filter (fun ident =>
                !inp.checkResults.any (fun c =>
                  c.identifier == ident && c.status == CheckStatus.success)))⟩]) := by
  obtain ⟨coV, hco, -⟩ := mergeVerify_some v inp out rvs hmv
  have hbad : violatingStatusCheckIdentifiers v inp.checkResults =
      v.statusChecks.requireIdentifiers.filter (fun ident =>
        !inp.checkResults.any (fun c =>
          c.identifier == ident && c.status == CheckStatus.success)) := by
    unfold violatingStatusCheckIdentifiers
    exact List.filter_congr (fun ident _ => by
      rw [checkSucceeded_eq_any inp.checkResults ident hpw])
  have hvwc := violationsWithCode_statusStage v inp out rvs coV hmv hco
    codePullReqStatusChecksReqIdentifiers (by decide) (by decide) (by decide) (by decide)
    (by decide) (by decide) (by decide) (by decide) (by decide)
  constructor
  · intro hnil
    rw [hvwc]
    simp only [statusCheckViolations]
    rw [hbad, hnil]
    simp
  · intro hne
    rw [hvwc]
    simp only [statusCheckViolations]
    rw [hbad]
    rw [if_pos (List.length_pos.mpr hne)]
    exact filter_code_singleton_eq _ _

/-- C1 witness: one required check with no results at all yields exactly the
one violation listing it. -/
theorem merge_verify_status_checks_witness :
    violationsWithCode
        [⟨[⟨codePullReqStatusChecksReqIdentifiers,
          "The following status checks are required to be completed successfully: ci"⟩]⟩]
        codePullReqStatusChecksReqIdentifiers =
      [⟨codePullReqStatusChecksReqIdentifiers,
        "The following status checks are required to be completed successfully: ci"⟩] :=
  (merge_verify_status_checks
    ⟨⟨false, 0, false, false⟩, ⟨false⟩, ⟨["ci"]⟩, ⟨[], false⟩⟩
    ⟨⟨"t", "d", "s", 0, 0, 0, 0⟩, [], none, [], none⟩
    ⟨false, MergeMethods⟩ _ List.Pairwise.nil rfl).2 (by decide)

/-- C1 counterexample: with a duplicated identifier whose first result failed
and second succeeded, some check result with the required identifier has
status success, yet the evaluation still emits the status-check violation
listing it (the code stops at the first matching result). -/
theorem merge_verify_status_first_match_cex :
    ([⟨"ci", CheckStatus.failure⟩, ⟨"ci", CheckStatus.success⟩] : List CheckResult).any
        (fun c => c.identifier == "ci" && c.status == CheckStatus.success) = true ∧
    mergeVerify
      ⟨⟨false, 0, false, false⟩, ⟨false⟩, ⟨["ci"]⟩, ⟨[], false⟩⟩
      ⟨⟨"t", "d", "s", 0, 0, 0, 0⟩, [], none,
        [⟨"ci", CheckStatus.failure⟩, ⟨"ci", CheckStatus.success⟩], none⟩ =
      some (⟨false, MergeMethods⟩,
        [⟨[⟨codePullReqStatusChecksReqIdentifiers,
          "The following status checks are required to be completed successfully: ci"⟩]⟩]) :=
  ⟨by decide, by decide⟩

/-- C3: when at least two of the three independent violation conditions hold
(insufficient qualifying approvals, unresolved comments with
require-resolve-all, a required status check not satisfied), the report
contains at least two violations: the evaluation never stops at the first
violation. -/
theorem merge_verify_no_short_circuit (v : DefPullReq) (inp : MergeVerifyInput)
    (out : MergeVerifyOutput) (rvs : List RuleViolations)
    (hmv : mergeVerify v inp = some (out, rvs))
    (hcond :
      ((((inp.reviewers.filter (qualifiesAsApproval v inp.pullReq.sourceSHA)).length : Int) <
          v.approvals.requireMinimumCount) ∧
        (v.comments.requireResolveAll = true ∧ inp.pullReq.unresolvedCount > 0)) ∨
      ((((inp.reviewers.filter (qualifiesAsApproval v inp.pullReq.sourceSHA)).length : Int) <
          v.approvals.requireMinimumCount) ∧
        violatingStatusCheckIdentifiers v inp.checkResults ≠ []) ∨
      ((v.comments.requireResolveAll = true ∧ inp.pullReq.unresolvedCount > 0) ∧
        violatingStatusCheckIdentifiers v inp.checkResults ≠ [])) :
    2 ≤ (allViolationList rvs).length := by
  obtain ⟨coV, hco, hrvs⟩ := mergeVerify_some v inp out rvs hmv
  subst hrvs
  rw [allViolationList_pack]
  have hAmem : (((inp.reviewers.filter (qualifiesAsApproval v inp.pullReq.sourceSHA)).length : Int) <
        v.approvals.requireMinimumCount) →
      ∃ m, m ∈ mergeVerifyViolationList v inp coV ∧
        (m.code = codePullReqApprovalReqMinCount ∨
          m.code = codePullReqApprovalReqMinCountLatest) := by
    intro hA
    have hlt : ((reviewerScan v inp.pullReq.sourceSHA inp.reviewers).1.length : Int) <
        v.approvals.requireMinimumCount := by
      rw [reviewerScan_fst, List.length_map]; exact hA
    unfold mergeVerifyViolationList minCountViolations
    rw [if_pos hlt]
    by_cases hl : v.approvals.requireLatestCommit = true
    · rw [if_pos hl]
      refine ⟨⟨codePullReqApprovalReqMinCountLatest,
        "Insufficient number of approvals of the latest commit. Have " ++
          toString (reviewerScan v inp.pullReq.sourceSHA inp.reviewers).1.length ++
          " but need at least " ++ toString v.approvals.requireMinimumCount ++ "."⟩,
        ?_, Or.inr rfl⟩
      simp [List.mem_append]
    · rw [if_neg hl]
      refine ⟨⟨codePullReqApprovalReqMinCount,
        "Insufficient number of approvals. Have " ++
          toString (reviewerScan v inp.pullReq.sourceSHA inp.reviewers).1.length ++
          " but need at least " ++ toString v.approvals.requireMinimumCount ++ "."⟩,
        ?_, Or.inl rfl⟩
      simp [List.mem_append]
  have hBmem : (v.comments.requireResolveAll = true ∧ inp.pullReq.unresolvedCount > 0) →
      ∃ m, m ∈ mergeVerifyViolationList v inp coV ∧
        m.code = codePullReqCommentsReqResolveAll := by
    intro hB
    unfold mergeVerifyViolationList commentViolations
    rw [if_pos hB]
    refine ⟨⟨codePullReqCommentsReqResolveAll,
      "All comments must be resolved. There are " ++
        toString inp.pullReq.unresolvedCount ++ " unresolved comments."⟩, ?_, rfl⟩
    simp [List.mem_append]
  have hCmem : violatingStatusCheckIdentifiers v inp.checkResults ≠ [] →
      ∃ m, m ∈ mergeVerifyViolationList v inp coV ∧
        m.code = codePullReqStatusChecksReqIdentifiers := by
    intro hC
    unfold mergeVerifyViolationList
    simp only [statusCheckViolations]
    rw [if_pos (List.length_pos.mpr hC)]
    refine ⟨⟨codePullReqStatusChecksReqIdentifiers,
      "The following status checks are required to be completed successfully: " ++
        String.intercalate ", " (violatingStatusCheckIdentifiers v inp.checkResults)⟩, ?_, rfl⟩
    simp [List.mem_append]
  rcases hcond with ⟨hA, hB⟩ | ⟨hA, hC⟩ | ⟨hB, hC⟩
  · obtain ⟨x, hx, hxc⟩ := hAmem hA
    obtain ⟨y, hy, hyc⟩ := hBmem hB
    refine two_le_length_of_mem_of_mem_of_ne hx hy (fun hxy => ?_)
    subst hxy
    rcases hxc with h | h
    · rw [h] at hyc; exact absurd hyc (by decide)
    · rw [h] at hyc; exact absurd hyc (by decide)
  · obtain ⟨x, hx, hxc⟩ := hAmem hA
    obtain ⟨y, hy, hyc⟩ := hCmem hC
    refine two_le_length_of_mem_of_mem_of_ne hx hy (fun hxy => ?_)
    subst hxy
    rcases hxc with h | h
    · rw [h] at hyc; exact absurd hyc (by decide)
    · rw [h] at hyc; exact absurd hyc (by decide)
  · obtain ⟨x, hx, hxc⟩ := hBmem hB
    obtain ⟨y, hy, hyc⟩ := hCmem hC
    refine two_le_length_of_mem_of_mem_of_ne hx hy (fun hxy => ?_)
    subst hxy
    rw [hxc] at hyc
    exact absurd hyc (by decide)

/-- C3 witness: insufficient approvals together with unresolved comments give
a report with two violations. -/
theorem merge_verify_no_short_circuit_witness :
    2 ≤ (allViolationList [⟨[
      ⟨codePullReqApprovalReqMinCount,
        "Insufficient number of approvals. Have 0 but need at least 1."⟩,
      ⟨codePullReqCommentsReqResolveAll,
        "All comments must be resolved. There are 2 unresolved comments."⟩]⟩]).length :=
  merge_verify_no_short_circuit
    ⟨⟨false, 1, false, false⟩, ⟨true⟩, ⟨[]⟩, ⟨[], false⟩⟩
    ⟨⟨"t", "d", "s", 2, 0, 0, 0⟩, [], none, [], none⟩
    ⟨false, MergeMethods⟩ _ rfl (Or.inl ⟨by decide, rfl, by decide⟩)

/-- C8 (amended): MergeVerify totally evaluates and returns with a nil error
on every input in which code owners are not required or the code-owner
evaluation is present; absent reviewers and an empty check-result list are
always fine. (When the policy requires code owners and the code-owner
evaluation is absent, the source instead dereferences a nil pointer.) -/
theorem merge_verify_total (v : DefPullReq) (inp : MergeVerifyInput)
    (h : v.approvals.requireCodeOwners = false ∨ inp.codeOwners.isSome = true) :
    (mergeVerify v inp).isSome = true := by
  rcases h with h | h
  · simp [mergeVerify, codeOwnerStage, h]
  · cases hopt : inp.codeOwners with
    | none => rw [hopt] at h; simp at h
    | some ev =>
      by_cases hreq : v.approvals.requireCodeOwners = true
      · simp [mergeVerify, codeOwnerStage, hreq, hopt]
      · simp [mergeVerify, codeOwnerStage, hreq, hopt]

/-- C8 witness: no reviewers and no check results, code owners not
required. -/
theorem merge_verify_total_witness :
    (mergeVerify ⟨⟨false, 0, false, false⟩, ⟨false⟩, ⟨[]⟩, ⟨[], false⟩⟩
      ⟨⟨"t", "d", "s", 0, 0, 0, 0⟩, [], none, [], none⟩).isSome = true :=
  merge_verify_total _ _ (Or.inl rfl)

/-- C8 counterexample: a structurally valid policy requiring code owners,
evaluated with an absent (nil) code-owner evaluation: the evaluation does not
return at all (nil-pointer panic), contradicting a nil-error return. -/
theorem merge_verify_nil_codeowners_cex :
    mergeVerify ⟨⟨true, 0, false, false⟩, ⟨false⟩, ⟨[]⟩, ⟨[], false⟩⟩
      ⟨⟨"t", "d", "s", 0, 0, 0, 0⟩, [], none, [], none⟩ = none := rfl

end Gitness
